import Mathlib

set_option maxHeartbeats 1000000
set_option linter.unusedVariables false

namespace MunkiRebrander

/-- Python str.replace: leftmost, non-overlapping replacement of every
occurrence of old in s by new, as in s.replace(old, new). -/
def pyReplace : List Char → List Char → List Char → List Char
  | [], [], new => new
  | c :: rest, [], new => new ++ c :: pyReplace rest [] new
  | [], _ :: _, _ => []
  | c :: rest, o :: os, new =>
    if (o :: os).isPrefixOf (c :: rest) then
      new ++ pyReplace (rest.drop os.length) (o :: os) new
    else
      c :: pyReplace rest (o :: os) new
termination_by s _ _ => s.length
decreasing_by
  all_goals simp only [List.length_drop, List.length_cons]
  all_goals omega

/-- Python str.split(sep): split on every occurrence of the separator,
as in line.split(sep) with a one-character separator. -/
def pySplit (sep : Char) : List Char → List (List Char)
  | [] => [[]]
  | c :: rest =>
    match pySplit sep rest with
    | [] => [[]]
    | p :: ps => if c = sep then [] :: p :: ps else (c :: p) :: ps

/-- Python substring containment, as in old in s. -/
def containsSub : List Char → List Char → Bool
  | [], old => old.isEmpty
  | c :: rest, old => old.isPrefixOf (c :: rest) || containsSub rest old

/-- The module constant APPNAME. -/
def APPNAME : String := "Managed Software Center"

/-- The module constant APPNAME_LOCALIZED: language code to the localized
display name of Managed Software Center, in source order. -/
def APPNAME_LOCALIZED : List (String × String) := [
  ("da", "Managed Software Center"),
  ("de", "Geführte Softwareaktualisierung"),
  ("en", "Managed Software Center"),
  ("en_AU", "Managed Software Centre"),
  ("en_GB", "Managed Software Centre"),
  ("en_CA", "Managed Software Centre"),
  ("es", "Centro de aplicaciones"),
  ("fi", "Managed Software Center"),
  ("fr", "Centre de gestion des logiciels"),
  ("it", "Centro Gestione Applicazioni"),
  ("ja", "Managed Software Center"),
  ("nb", "Managed Software Center"),
  ("nl", "Managed Software Center"),
  ("ru", "Центр Управления ПО"),
  ("sv", "Managed Software Center")]

/-- Python dict lookup APPNAME_LOCALIZED[code], returning none where Python
would raise KeyError. -/
def lookupLoc : List (String × String) → String → Option String
  | [], _ => none
  | kv :: t, c => if c = kv.1 then some kv.2 else lookupLoc t c

/-- One iteration of the line loop of replace_strings: if the line contains
the separator and does not start the comment marker, split on every
separator, require exactly two segments (Python unpacking left, right =
line.split, which raises ValueError otherwise), replace the localized name
in the right segment and rejoin; otherwise pass the line through. -/
def processLine (localized appname line : List Char) : Except String (List Char) :=
  if ('=' ∈ line) ∧ (['/', '*'].isPrefixOf line = false) then
    match pySplit '=' line with
    | [left, right] => .ok (left ++ '=' :: pyReplace right localized appname)
    | _ => .error "ValueError"
  else .ok line

/-- Effectful map of a per-line rewrite over the lines of a file, stopping
at the first raised error. -/
def mapLines (f : List Char → Except String (List Char)) : List (List Char) → Except String (List (List Char))
  | [] => .ok []
  | l :: rest =>
    match f l with
    | .error e => .error e
    | .ok l2 =>
      match mapLines f rest with
      | .error e => .error e
      | .ok rest2 => .ok (l2 :: rest2)

/-- Content-level replace_strings: the lines written to the backup file of
the .strings rewrite (and, after the swap, the new content of the file). -/
def replace_strings (code appname : String) (lines : List (List Char)) : Except String (List (List Char)) :=
  match lookupLoc APPNAME_LOCALIZED code with
  | none => .error "KeyError"
  | some localized => mapLines (processLine localized.data appname.data) lines

/-- Content-level replace_nib substitution pass: every line of the
xml-converted nib gets an unscoped literal replacement. -/
def replace_nib_lines (localized appname : String) (lines : List (List Char)) : List (List Char) :=
  lines.map (fun l => pyReplace l localized.data appname.data)

/-- File encodings distinguished by the model. -/
inductive Enc
  | utf16
  | binPlist
  | xmlPlist
  | pngE
  | icnsE
  | dirE
deriving DecidableEq, Repr

/-- Abstract file content: an encoding tag plus the text lines of the file
(for a property list, the lines of its xml1 form, which the binary1 and
xml1 encodings share since the conversion is lossless). -/
structure FData where
  enc : Enc
  lines : List (List Char)
deriving DecidableEq, Repr

/-- A filesystem: a map from path to optional file content. -/
def FS : Type := String → Option FData

/-- Filesystem effects performed by the processor. -/
inductive FsOp
  | createFile (p : String) (e : Enc)
  | appendLine (p : String) (l : List Char)
  | removeFile (p : String)
  | renameFile (src dst : String)
  | plistToXml (p : String)
  | plistToBinary (p : String)
  | copyFile (src dst : String)
  | mkdtempDir (p : String)
  | mkdirDir (p : String)
  | sipsResample (size : String) (src dst : String)
  | iconutilCompile (iconset out : String)
  | removeTree (p : String)
deriving DecidableEq, Repr

/-- Semantics of one filesystem effect. -/
def applyOp (fs : FS) : FsOp → FS
  | .createFile p e => fun q => if q = p then some ⟨e, []⟩ else fs q
  | .appendLine p l => fun q =>
      if q = p then
        match fs p with
        | some d => some ⟨d.enc, d.lines ++ [l]⟩
        | none => some ⟨Enc.utf16, [l]⟩
      else fs q
  | .removeFile p => fun q => if q = p then none else fs q
  | .renameFile src dst => fun q =>
      if q = dst then fs src else if q = src then none else fs q
  | .plistToXml p => fun q =>
      if q = p then (fs p).map (fun d => ⟨Enc.xmlPlist, d.lines⟩) else fs q
  | .plistToBinary p => fun q =>
      if q = p then (fs p).map (fun d => ⟨Enc.binPlist, d.lines⟩) else fs q
  | .copyFile src dst => fun q => if q = dst then fs src else fs q
  | .mkdtempDir p => fun q => if q = p then some ⟨Enc.dirE, []⟩ else fs q
  | .mkdirDir p => fun q => if q = p then some ⟨Enc.dirE, []⟩ else fs q
  | .sipsResample _ _ dst => fun q => if q = dst then some ⟨Enc.pngE, []⟩ else fs q
  | .iconutilCompile _ out => fun q => if q = out then some ⟨Enc.icnsE, []⟩ else fs q
  | .removeTree p => fun q => if p.isPrefixOf q then none else fs q

/-- Apply a list of effects in order. -/
def applyOps (fs : FS) (ops : List FsOp) : FS := ops.foldl applyOp fs

/-- Whether applying an effect can change the filesystem at path q. -/
def opTouches (op : FsOp) (q : String) : Bool :=
  match op with
  | .createFile p _ => q = p
  | .appendLine p _ => q = p
  | .removeFile p => q = p
  | .renameFile src dst => q = src || q = dst
  | .plistToXml p => q = p
  | .plistToBinary p => q = p
  | .copyFile _ dst => q = dst
  | .mkdtempDir p => q = p
  | .mkdirDir p => q = p
  | .sipsResample _ _ dst => q = dst
  | .iconutilCompile _ out => q = out
  | .removeTree p => p.isPrefixOf q

/-- The appendLine effects of the line loop of replace_strings, stopping at
the first line whose processing raises. -/
def stringsLineOps (bak : String) (localized appname : List Char) : List (List Char) → List FsOp × Option String
  | [] => ([], none)
  | l :: rest =>
    match processLine localized appname l with
    | .error e => ([], some e)
    | .ok l2 =>
      let r := stringsLineOps bak localized appname rest
      (FsOp.appendLine bak l2 :: r.1, r.2)

/-- Effect-level replace_strings: the filesystem effects of one call and
the exception aborting the run, when one is raised. The current content of
the .strings file is read from fs; a missing file or one that is not
utf-16 text makes the read raise. The backup file is opened for writing
first, the lines are written one by one, and only on success is the
original removed and the backup renamed over it. -/
def replace_strings_run (fs : FS) (strings_file code appname : String) : List FsOp × Option String :=
  match lookupLoc APPNAME_LOCALIZED code with
  | none => ([], some "KeyError")
  | some localized =>
    let backup_file := strings_file ++ ".bak"
    match fs strings_file with
    | some d =>
      if d.enc = Enc.utf16 then
        let r := stringsLineOps backup_file localized.data appname.data d.lines
        match r.2 with
        | some err => (FsOp.createFile backup_file Enc.utf16 :: r.1, some err)
        | none => (FsOp.createFile backup_file Enc.utf16 :: r.1 ++
            [FsOp.removeFile strings_file, FsOp.renameFile backup_file strings_file], none)
      else ([FsOp.createFile backup_file Enc.utf16], some "UnicodeDecodeError")
    | none => ([FsOp.createFile backup_file Enc.utf16], some "IOError")

/-- Effect-level replace_nib: convert the nib file in place to xml1 first,
then write the substituted lines to the backup, remove the original,
rename the backup over it, and convert the result back to binary1 in
place. plutil raises on a file that is not a property list. -/
def replace_nib_run (fs : FS) (nib_file code appname : String) : List FsOp × Option String :=
  match lookupLoc APPNAME_LOCALIZED code with
  | none => ([], some "KeyError")
  | some localized =>
    let backup_file := nib_file ++ ".bak"
    match fs nib_file with
    | some d =>
      if d.enc = Enc.binPlist ∨ d.enc = Enc.xmlPlist then
        (FsOp.plistToXml nib_file :: FsOp.createFile backup_file Enc.xmlPlist ::
          d.lines.map (fun l => FsOp.appendLine backup_file (pyReplace l localized.data appname.data)) ++
          [FsOp.removeFile nib_file, FsOp.renameFile backup_file nib_file,
           FsOp.plistToBinary nib_file], none)
      else ([FsOp.plistToXml nib_file], some "ConversionError")
    | none => ([FsOp.plistToXml nib_file], some "ConversionError")

/-- fnmatch against the pattern *.strings: the path ends in .strings. -/
def fnmatchStrings (p : String) : Bool := ".strings".data.isSuffixOf p.data

/-- fnmatch against the pattern *.nib. -/
def fnmatchNib (p : String) : Bool := ".nib".data.isSuffixOf p.data

/-- fnmatch against the pattern *.png. -/
def fnmatchPng (p : String) : Bool := ".png".data.isSuffixOf p.data

/-- Processing of one file inside a known lproj directory: both fnmatch
tests are run in sequence, as in the source. -/
def processFile (fs : FS) (lfile code appname : String) : List FsOp × Option String :=
  let r1 :=
    if fnmatchStrings lfile then replace_strings_run fs lfile code appname
    else ([], none)
  match r1.2 with
  | some e => (r1.1, some e)
  | none =>
    let fs1 := applyOps fs r1.1
    let r2 :=
      if fnmatchNib lfile then replace_nib_run fs1 lfile code appname
      else ([], none)
    (r1.1 ++ r2.1, r2.2)

/-- The os.walk loop over the files of one lproj directory, threading the
filesystem and stopping at the first exception. -/
def processFiles (code appname : String) : FS → List String → List FsOp × Option String
  | _, [] => ([], none)
  | fs, f :: rest =>
    let r1 := processFile fs f code appname
    match r1.2 with
    | some e => (r1.1, some e)
    | none =>
      let r2 := processFiles code appname (applyOps fs r1.1) rest
      (r1.1 ++ r2.1, r2.2)

/-- os.path.basename: the part of the path after the last slash. -/
def basename (p : String) : List Char :=
  (p.data.reverse.takeWhile (fun c => c ≠ '/')).reverse

/-- Language code derivation for an lproj directory:
os.path.basename(lproj_dir).split(".")[0]. -/
def langCode (lproj : String) : String :=
  String.mk ((pySplit '.' (basename lproj)).headD [])

/-- Directory listings of the unpacked tree and the fresh temporary
directories, as observed by glob, os.walk and mkdtemp: lprojDirs lists the
*.lproj subdirectories of a resources directory, walkFiles lists every
file under an lproj directory, and tempDir n is the fresh directory a call
to mkdtemp during the processing of the n-th target application returns. -/
structure TreeModel where
  lprojDirs : String → List String
  walkFiles : String → List String
  tempDir : Nat → String

/-- Processing of one lproj directory: derive the language code and skip
the directory wholesale unless the code is a key of APPNAME_LOCALIZED. -/
def processLproj (tm : TreeModel) (fs : FS) (lproj appname : String) : List FsOp × Option String :=
  if (lookupLoc APPNAME_LOCALIZED (langCode lproj)).isSome then
    processFiles (langCode lproj) appname fs (tm.walkFiles lproj)
  else ([], none)

/-- The loop over the lproj directories of one target application. -/
def processLprojs (tm : TreeModel) (appname : String) : FS → List String → List FsOp × Option String
  | _, [] => ([], none)
  | fs, d :: rest =>
    let r1 := processLproj tm fs d appname
    match r1.2 with
    | some e => (r1.1, some e)
    | none =>
      let r2 := processLprojs tm appname (applyOps fs r1.1) rest
      (r1.1 ++ r2.1, r2.2)

/-- One target application: resources path inside the tree and icon name. -/
structure AppSpec where
  path : String
  icon : String
deriving DecidableEq, Repr

/-- The module constant MSC_APP. -/
def MSC_APP : AppSpec :=
  ⟨"Applications/Managed Software Center.app/Contents/Resources",
   "Managed Software Center.icns"⟩

/-- The module constant MS_APP, nested inside the resources of MSC_APP. -/
def MS_APP : AppSpec :=
  ⟨MSC_APP.path ++ "/MunkiStatus.app/Contents/Resources", "MunkiStatus.icns"⟩

/-- The module constant APPS. -/
def APPS : List AppSpec := [MSC_APP, MS_APP]

/-- The module constant ICON_SIZES, in source order. -/
def ICON_SIZES : List (String × String) := [
  ("16", "16x16"), ("32", "16x16@2x"),
  ("32", "32x32"), ("64", "32x32@2x"),
  ("128", "128x128"), ("256", "128x128@2x"),
  ("256", "256x256"), ("512", "256x256@2x"),
  ("512", "512x512"), ("1024", "512x512@2x")]

/-- Effect-level convert_to_icns. temp_dir is the fresh directory mkdtemp
returns for this call; output_dir is the second argument of the source
function (RECIPE_CACHE_DIR at the call site in main). The iconset is
staged and the .icns compiled inside temp_dir; the returned string is the
path of the compiled .icns. -/
def convert_to_icns (png output_dir temp_dir : String) : List FsOp × String :=
  let iconset := temp_dir ++ "/AppIcns.iconset"
  let icns := temp_dir ++ "/AppIcns.icns"
  (FsOp.mkdtempDir temp_dir :: FsOp.mkdirDir iconset ::
    ICON_SIZES.map (fun hs => FsOp.sipsResample hs.1 png (iconset ++ "/icon_" ++ hs.2 ++ ".png")) ++
    [FsOp.iconutilCompile iconset icns], icns)

/-- The processor environment self.env: each key is present or absent. -/
structure Env where
  unpacked_path : Option String
  app_name : Option String
  icon_file : Option String
  RECIPE_CACHE_DIR : Option String

/-- The icon block executed once per target application in main: check
existence of the supplied icon; for a png, convert it via convert_to_icns,
passing RECIPE_CACHE_DIR as output_dir; then copy the resulting icns over
the icon of the application. n is the index of the application, used for the
fresh mkdtemp directory a conversion uses. -/
def iconStep (tm : TreeModel) (fs : FS) (env : Env) (path : String) (a : AppSpec) (n : Nat) : List FsOp × Option String :=
  match env.icon_file with
  | none => ([], none)
  | some icon0 =>
    if (fs icon0).isSome then
      if fnmatchPng icon0 then
        match env.RECIPE_CACHE_DIR with
        | none => ([], some "KeyError")
        | some cache =>
          let r := convert_to_icns icon0 cache (tm.tempDir n)
          let dest := path ++ "/" ++ a.path ++ "/" ++ a.icon
          (r.1 ++ [FsOp.copyFile r.2 dest], none)
      else
        let dest := path ++ "/" ++ a.path ++ "/" ++ a.icon
        ([FsOp.copyFile icon0 dest], none)
    else ([], some ("ProcessorError: " ++ icon0 ++ " does not exist!"))

/-- The loop over APPS in main: per application, first the lproj rewriting,
then the icon block, threading the filesystem and stopping at the first
exception. -/
def processApps (tm : TreeModel) (env : Env) (path appname : String) : FS → Nat → List AppSpec → List FsOp × Option String
  | _, _, [] => ([], none)
  | fs, n, a :: rest =>
    let r1 := processLprojs tm appname fs (tm.lprojDirs (path ++ "/" ++ a.path))
    match r1.2 with
    | some e => (r1.1, some e)
    | none =>
      let fs1 := applyOps fs r1.1
      let r2 := iconStep tm fs1 env path a n
      match r2.2 with
      | some e => (r1.1 ++ r2.1, some e)
      | none =>
        let r3 := processApps tm env path appname (applyOps fs1 r2.1) (n + 1) rest
        (r1.1 ++ r2.1 ++ r3.1, r3.2)

/-- main: if both required inputs are present in the environment, run the
rebranding over the fixed APPS list; otherwise fall through silently.
Returns the filesystem effects performed and the error aborting the run,
if one was raised. -/
def mainRun (tm : TreeModel) (fs : FS) (env : Env) : List FsOp × Option String :=
  match env.unpacked_path, env.app_name with
  | some path, some app_name => processApps tm env path app_name fs 0 APPS
  | _, _ => ([], none)

/-- The declared input variables of the processor and their required
flags. -/
def input_variables : List (String × Bool) :=
  [("unpacked_path", true), ("app_name", true), ("icon_file", false), ("postinstall", false)]

theorem applyOps_cons (fs : FS) (op : FsOp) (ops : List FsOp) :
    applyOps fs (op :: ops) = applyOps (applyOp fs op) ops := rfl

theorem applyOps_append (fs : FS) (l1 l2 : List FsOp) :
    applyOps fs (l1 ++ l2) = applyOps (applyOps fs l1) l2 :=
  List.foldl_append _ _ _ _

theorem applyOp_untouched (fs : FS) (op : FsOp) (q : String)
    (h : opTouches op q = false) : applyOp fs op q = fs q := by
  cases op <;> simp_all [applyOp, opTouches]

theorem applyOps_untouched (ops : List FsOp) (fs : FS) (q : String)
    (h : ∀ op ∈ ops, opTouches op q = false) : applyOps fs ops q = fs q := by
  induction ops generalizing fs with
  | nil => rfl
  | cons op rest ih =>
    rw [applyOps_cons, ih _ (fun o ho => h o (List.mem_cons_of_mem _ ho)),
      applyOp_untouched fs op q (h op (List.mem_cons_self _ _))]

theorem append_ne_self (s t : String) (h : t.length ≠ 0) : s ++ t ≠ s := by
  intro he
  have h2 := congrArg String.length he
  rw [String.length_append] at h2
  omega

theorem bak_ne (file : String) : file ++ ".bak" ≠ file :=
  append_ne_self file ".bak" (by decide)

theorem isPrefixOf_append_self (s t : String) : s.data.isPrefixOf (s ++ t).data = true := by
  rw [String.data_append]
  exact List.isPrefixOf_iff_prefix.mpr (List.prefix_append _ _)

theorem isPrefixOf_data_refl (s : String) : s.data.isPrefixOf s.data = true :=
  List.isPrefixOf_iff_prefix.mpr (List.prefix_refl _)

theorem stringsLineOps_untouched (bak : String) (loc app : List Char)
    (lines : List (List Char)) (q : String) (hq : q ≠ bak) :
    ∀ op ∈ (stringsLineOps bak loc app lines).1, opTouches op q = false := by
  induction lines with
  | nil => intro op h; simp [stringsLineOps] at h
  | cons l rest ih =>
    intro op h
    cases hpl : processLine loc app l with
    | error e => simp [stringsLineOps, hpl] at h
    | ok l2 =>
      simp only [stringsLineOps, hpl] at h
      rcases List.mem_cons.mp h with h | h
      · subst h; simp [opTouches, hq]
      · exact ih op h

theorem replace_strings_run_untouched (fs : FS) (file code app q : String)
    (h1 : q ≠ file) (h2 : q ≠ file ++ ".bak") :
    ∀ op ∈ (replace_strings_run fs file code app).1, opTouches op q = false := by
  intro op hop
  cases hl : lookupLoc APPNAME_LOCALIZED code with
  | none => simp [replace_strings_run, hl] at hop
  | some localized =>
    cases hf : fs file with
    | none =>
      simp [replace_strings_run, hl, hf] at hop
      subst hop; simp [opTouches, h2]
    | some d =>
      by_cases he : d.enc = Enc.utf16
      · cases hr : (stringsLineOps (file ++ ".bak") localized.data app.data d.lines).2 with
        | some err =>
          simp only [replace_strings_run, hl, hf, he, if_pos, hr] at hop
          rcases List.mem_cons.mp hop with h | h
          · subst h; simp [opTouches, h2]
          · exact stringsLineOps_untouched _ _ _ _ _ h2 op h
        | none =>
          simp only [replace_strings_run, hl, hf, he, if_pos, hr] at hop
          rcases List.mem_cons.mp hop with h | h
          · subst h; simp [opTouches, h2]
          · rcases List.mem_append.mp h with h | h
            · exact stringsLineOps_untouched _ _ _ _ _ h2 op h
            · rcases List.mem_cons.mp h with h | h
              · subst h; simp [opTouches, h1]
              · simp at h; subst h; simp [opTouches, h1, h2]
      · simp [replace_strings_run, hl, hf, he] at hop
        subst hop; simp [opTouches, h2]

theorem replace_nib_run_untouched (fs : FS) (file code app q : String)
    (h1 : q ≠ file) (h2 : q ≠ file ++ ".bak") :
    ∀ op ∈ (replace_nib_run fs file code app).1, opTouches op q = false := by
  intro op hop
  cases hl : lookupLoc APPNAME_LOCALIZED code with
  | none => simp [replace_nib_run, hl] at hop
  | some localized =>
    cases hf : fs file with
    | none =>
      simp [replace_nib_run, hl, hf] at hop
      subst hop; simp [opTouches, h1]
    | some d =>
      by_cases he : d.enc = Enc.binPlist ∨ d.enc = Enc.xmlPlist
      · simp only [replace_nib_run, hl, hf, he, if_pos] at hop
        rcases List.mem_cons.mp hop with h | h
        · subst h; simp [opTouches, h1]
        · rcases List.mem_cons.mp h with h | h
          · subst h; simp [opTouches, h2]
          · rcases List.mem_append.mp h with h | h
            · rcases List.mem_map.mp h with ⟨l, _, h⟩
              subst h; simp [opTouches, h2]
            · rcases List.mem_cons.mp h with h | h
              · subst h; simp [opTouches, h1]
              · rcases List.mem_cons.mp h with h | h
                · subst h; simp [opTouches, h1, h2]
                · simp at h; subst h; simp [opTouches, h1]
      · simp [replace_nib_run, hl, hf, he] at hop
        subst hop; simp [opTouches, h1]

theorem processFile_untouched (fs : FS) (lfile code app q : String)
    (h1 : q ≠ lfile) (h2 : q ≠ lfile ++ ".bak") :
    ∀ op ∈ (processFile fs lfile code app).1, opTouches op q = false := by
  intro op hop
  unfold processFile at hop
  by_cases hs : fnmatchStrings lfile = true
  · simp only [hs, if_pos] at hop
    cases hr : (replace_strings_run fs lfile code app).2 with
    | some e =>
      rw [hr] at hop
      exact replace_strings_run_untouched fs lfile code app q h1 h2 op hop
    | none =>
      rw [hr] at hop
      simp only [List.mem_append] at hop
      rcases hop with h | h
      · exact replace_strings_run_untouched fs lfile code app q h1 h2 op h
      · by_cases hn : fnmatchNib lfile = true
        · simp only [hn, if_pos] at h
          exact replace_nib_run_untouched _ lfile code app q h1 h2 op h
        · simp [hn] at h
  · simp only [Bool.not_eq_true] at hs
    simp only [hs] at hop
    simp only [Bool.false_eq_true, if_false] at hop
    by_cases hn : fnmatchNib lfile = true
    · simp only [hn, if_pos] at hop
      simp only [List.nil_append] at hop
      exact replace_nib_run_untouched _ lfile code app q h1 h2 op hop
    · simp [hn] at hop

theorem processFiles_untouched (code app : String) (files : List String) :
    ∀ (fs : FS) (q : String),
    (∀ f ∈ files, q ≠ f ∧ q ≠ f ++ ".bak") →
    ∀ op ∈ (processFiles code app fs files).1, opTouches op q = false := by
  induction files with
  | nil => intro fs q h op hop; simp [processFiles] at hop
  | cons f rest ih =>
    intro fs q h op hop
    have hf := h f (List.mem_cons_self _ _)
    cases hr : (processFile fs f code app).2 with
    | some e =>
      simp only [processFiles, hr] at hop
      exact processFile_untouched fs f code app q hf.1 hf.2 op hop
    | none =>
      simp only [processFiles, hr, List.mem_append] at hop
      rcases hop with hop | hop
      · exact processFile_untouched fs f code app q hf.1 hf.2 op hop
      · exact ih _ q (fun g hg => h g (List.mem_cons_of_mem _ hg)) op hop

theorem processLproj_untouched (tm : TreeModel) (fs : FS) (lproj app q : String)
    (h : (lookupLoc APPNAME_LOCALIZED (langCode lproj)).isSome = true →
         ∀ f ∈ tm.walkFiles lproj, q ≠ f ∧ q ≠ f ++ ".bak") :
    ∀ op ∈ (processLproj tm fs lproj app).1, opTouches op q = false := by
  intro op hop
  unfold processLproj at hop
  by_cases hk : (lookupLoc APPNAME_LOCALIZED (langCode lproj)).isSome = true
  · simp only [hk, if_pos] at hop
    exact processFiles_untouched _ _ _ fs q (h hk) op hop
  · simp only [Bool.not_eq_true] at hk
    simp [hk] at hop

theorem processLprojs_untouched (tm : TreeModel) (app : String) (dirs : List String) :
    ∀ (fs : FS) (q : String),
    (∀ d ∈ dirs, (lookupLoc APPNAME_LOCALIZED (langCode d)).isSome = true →
      ∀ f ∈ tm.walkFiles d, q ≠ f ∧ q ≠ f ++ ".bak") →
    ∀ op ∈ (processLprojs tm app fs dirs).1, opTouches op q = false := by
  induction dirs with
  | nil => intro fs q h op hop; simp [processLprojs] at hop
  | cons d rest ih =>
    intro fs q h op hop
    cases hr : (processLproj tm fs d app).2 with
    | some e =>
      simp only [processLprojs, hr] at hop
      exact processLproj_untouched tm fs d app q (h d (List.mem_cons_self _ _)) op hop
    | none =>
      simp only [processLprojs, hr, List.mem_append] at hop
      rcases hop with hop | hop
      · exact processLproj_untouched tm fs d app q (h d (List.mem_cons_self _ _)) op hop
      · exact ih _ q (fun g hg => h g (List.mem_cons_of_mem _ hg)) op hop

theorem convert_to_icns_untouched (png output_dir temp_dir q : String)
    (h : temp_dir.data.isPrefixOf q.data = false) :
    ∀ op ∈ (convert_to_icns png output_dir temp_dir).1, opTouches op q = false := by
  have hne : ∀ t : String, q ≠ temp_dir ++ t := by
    intro t he
    rw [he, isPrefixOf_append_self] at h
    cases h
  have hne0 : q ≠ temp_dir := by
    intro he
    rw [he, isPrefixOf_data_refl] at h
    cases h
  intro op hop
  simp only [convert_to_icns] at hop
  rcases List.mem_cons.mp hop with hop | hop
  · subst hop; simp [opTouches, hne0]
  · rcases List.mem_cons.mp hop with hop | hop
    · subst hop; simp [opTouches, hne]
    · rcases List.mem_append.mp hop with hop | hop
      · rcases List.mem_map.mp hop with ⟨hs, _, hop⟩
        subst hop
        have hd : q ≠ temp_dir ++ "/AppIcns.iconset" ++ "/icon_" ++ hs.2 ++ ".png" := by
          simp only [String.append_assoc]
          exact hne _
        simp [opTouches, hd]
      · simp only [List.mem_singleton] at hop
        subst hop; simp [opTouches, hne]

theorem iconStep_untouched (tm : TreeModel) (fs : FS) (env : Env)
    (path : String) (a : AppSpec) (n : Nat) (q : String)
    (h1 : q ≠ path ++ "/" ++ a.path ++ "/" ++ a.icon)
    (h2 : (tm.tempDir n).data.isPrefixOf q.data = false) :
    ∀ op ∈ (iconStep tm fs env path a n).1, opTouches op q = false := by
  intro op hop
  unfold iconStep at hop
  cases hi : env.icon_file with
  | none => rw [hi] at hop; simp at hop
  | some icon0 =>
    rw [hi] at hop
    by_cases hex : (fs icon0).isSome = true
    · simp only [hex, if_pos] at hop
      by_cases hpng : fnmatchPng icon0 = true
      · simp only [hpng, if_pos] at hop
        cases hc : env.RECIPE_CACHE_DIR with
        | none => rw [hc] at hop; simp at hop
        | some cache =>
          rw [hc] at hop
          simp only [List.mem_append] at hop
          rcases hop with hop | hop
          · exact convert_to_icns_untouched icon0 cache (tm.tempDir n) q h2 op hop
          · simp only [List.mem_singleton] at hop
            subst hop; simp [opTouches, h1]
      · simp only [Bool.not_eq_true] at hpng
        simp only [hpng, Bool.false_eq_true, if_false] at hop
        simp only [List.mem_singleton] at hop
        subst hop; simp [opTouches, h1]
    · simp only [Bool.not_eq_true] at hex
      simp [hex] at hop

theorem processApps_untouched (tm : TreeModel) (env : Env) (path appname : String)
    (apps : List AppSpec) :
    ∀ (fs : FS) (n : Nat) (q : String),
    (∀ a ∈ apps, ∀ d ∈ tm.lprojDirs (path ++ "/" ++ a.path),
      (lookupLoc APPNAME_LOCALIZED (langCode d)).isSome = true →
      ∀ f ∈ tm.walkFiles d, q ≠ f ∧ q ≠ f ++ ".bak") →
    (∀ a ∈ apps, q ≠ path ++ "/" ++ a.path ++ "/" ++ a.icon) →
    (∀ m : Nat, (tm.tempDir m).data.isPrefixOf q.data = false) →
    ∀ op ∈ (processApps tm env path appname fs n apps).1, opTouches op q = false := by
  induction apps with
  | nil => intro fs n q hf hi ht op hop; simp [processApps] at hop
  | cons a rest ih =>
    intro fs n q hf hi ht op hop
    have hfa := hf a (List.mem_cons_self _ _)
    have hia := hi a (List.mem_cons_self _ _)
    cases hr1 : (processLprojs tm appname fs (tm.lprojDirs (path ++ "/" ++ a.path))).2 with
    | some e =>
      simp only [processApps, hr1] at hop
      exact processLprojs_untouched tm appname _ fs q hfa op hop
    | none =>
      cases hr2 : (iconStep tm (applyOps fs (processLprojs tm appname fs (tm.lprojDirs (path ++ "/" ++ a.path))).1) env path a n).2 with
      | some e =>
        simp only [processApps, hr1, hr2, List.mem_append] at hop
        rcases hop with hop | hop
        · exact processLprojs_untouched tm appname _ fs q hfa op hop
        · exact iconStep_untouched tm _ env path a n q hia (ht n) op hop
      | none =>
        simp only [processApps, hr1, hr2, List.mem_append] at hop
        rcases hop with (hop | hop) | hop
        · exact processLprojs_untouched tm appname _ fs q hfa op hop
        · exact iconStep_untouched tm _ env path a n q hia (ht n) op hop
        · exact ih _ _ q (fun b hb => hf b (List.mem_cons_of_mem _ hb))
            (fun b hb => hi b (List.mem_cons_of_mem _ hb)) ht op hop

theorem containsSub_append_right (x y old : List Char)
    (h : containsSub y old = true) : containsSub (x ++ y) old = true := by
  induction x with
  | nil => simpa using h
  | cons c rest ih =>
    simp only [List.cons_append, containsSub, Bool.or_eq_true]
    exact Or.inr ih

theorem containsSub_cons_tail (c : Char) (rest old : List Char)
    (h : containsSub (c :: rest) old = false) : containsSub rest old = false := by
  simp only [containsSub, Bool.or_eq_false_iff] at h
  exact h.2

theorem containsSub_append_false (x y old : List Char)
    (h : containsSub (x ++ y) old = false) : containsSub y old = false := by
  cases hy : containsSub y old with
  | false => rfl
  | true => rw [containsSub_append_right x y old hy] at h; cases h

theorem pyReplace_of_not_contains (s old new : List Char)
    (h : containsSub s old = false) : pyReplace s old new = s := by
  induction s, old, new using pyReplace.induct with
  | case1 new => simp [containsSub, List.isEmpty] at h
  | case2 c rest new ih => simp [containsSub, List.isPrefixOf] at h
  | case3 o os x => simp [pyReplace]
  | case4 c rest o os new hp ih =>
    simp only [containsSub, Bool.or_eq_false_iff] at h
    rw [hp] at h
    cases h.1
  | case5 c rest o os new hp ih =>
    simp only [containsSub, Bool.or_eq_false_iff] at h
    simp only [pyReplace, hp, if_neg, Bool.false_eq_true, if_false]
    rw [ih h.2]

theorem mem_pyReplace (s old new : List Char) :
    ∀ x ∈ pyReplace s old new, x ∈ s ∨ x ∈ new := by
  induction s, old, new using pyReplace.induct with
  | case1 new => intro x hx; simp only [pyReplace] at hx; exact Or.inr hx
  | case2 c rest new ih =>
    intro x hx
    simp only [pyReplace, List.mem_append, List.mem_cons] at hx
    rcases hx with hx | hx | hx
    · exact Or.inr hx
    · exact Or.inl (by simp [hx])
    · rcases ih x hx with hx | hx
      · exact Or.inl (List.mem_cons_of_mem _ hx)
      · exact Or.inr hx
  | case3 o os x => intro y hy; simp [pyReplace] at hy
  | case4 c rest o os new hp ih =>
    intro x hx
    simp only [pyReplace, hp, if_pos, List.mem_append] at hx
    rcases hx with hx | hx
    · exact Or.inr hx
    · rcases ih x hx with hx | hx
      · exact Or.inl (List.mem_cons_of_mem _ (List.drop_subset _ _ hx))
      · exact Or.inr hx
  | case5 c rest o os new hp ih =>
    intro x hx
    simp only [pyReplace, hp, Bool.false_eq_true, if_false, List.mem_cons] at hx
    rcases hx with hx | hx
    · exact Or.inl (by simp [hx])
    · rcases ih x hx with hx | hx
      · exact Or.inl (List.mem_cons_of_mem _ hx)
      · exact Or.inr hx

theorem pySplit_ne_nil (sep : Char) (s : List Char) : pySplit sep s ≠ [] := by
  cases s with
  | nil => simp [pySplit]
  | cons c rest =>
    simp only [pySplit]
    cases pySplit sep rest with
    | nil => simp
    | cons p ps =>
      by_cases hc : c = sep <;> simp [hc]

theorem pySplit_of_not_mem (sep : Char) (l : List Char) (h : sep ∉ l) :
    pySplit sep l = [l] := by
  induction l with
  | nil => rfl
  | cons c rest ih =>
    have hc : c ≠ sep := fun he => h (by simp [he])
    have hr : sep ∉ rest := fun he => h (List.mem_cons_of_mem _ he)
    simp only [pySplit, ih hr, hc, if_neg, if_false]

theorem pySplit_append (sep : Char) (l r : List Char) (h : sep ∉ l) :
    pySplit sep (l ++ sep :: r) = l :: pySplit sep r := by
  induction l with
  | nil =>
    simp only [List.nil_append, pySplit]
    cases hr : pySplit sep r with
    | nil => exact absurd hr (pySplit_ne_nil sep r)
    | cons p ps => simp
  | cons c rest ih =>
    have hc : c ≠ sep := fun he => h (by simp [he])
    have hr : sep ∉ rest := fun he => h (List.mem_cons_of_mem _ he)
    simp only [List.cons_append, pySplit, List.append_eq]
    rw [ih hr]
    simp [hc]

theorem pySplit_single (sep : Char) (s a : List Char) (h : pySplit sep s = [a]) :
    s = a ∧ sep ∉ a := by
  induction s generalizing a with
  | nil =>
    simp only [pySplit, List.cons.injEq] at h
    exact ⟨h.1, by rw [← h.1]; simp⟩
  | cons c rest ih =>
    simp only [pySplit] at h
    cases hr : pySplit sep rest with
    | nil => exact absurd hr (pySplit_ne_nil sep rest)
    | cons p ps =>
      rw [hr] at h
      by_cases hc : c = sep
      · simp [hc] at h
      · simp only [hc, if_neg, if_false, List.cons.injEq] at h
        have hps : ps = [] := h.2
        have := ih (a := p) (by rw [hr, hps])
        constructor
        · rw [← h.1, this.1]
        · rw [← h.1]
          intro hm
          rcases List.mem_cons.mp hm with hm | hm
          · exact hc hm.symm
          · exact this.2 hm

theorem pySplit_pair (sep : Char) (s a b : List Char)
    (h : pySplit sep s = [a, b]) : s = a ++ sep :: b ∧ sep ∉ a ∧ sep ∉ b := by
  induction s generalizing a b with
  | nil => simp [pySplit] at h
  | cons c rest ih =>
    simp only [pySplit] at h
    cases hr : pySplit sep rest with
    | nil => exact absurd hr (pySplit_ne_nil sep rest)
    | cons p ps =>
      rw [hr] at h
      by_cases hc : c = sep
      · simp only [hc, if_pos, List.cons.injEq] at h
        have hb := pySplit_single sep rest b (by rw [hr, h.2.1, h.2.2])
        refine ⟨?_, ?_, hb.2⟩
        · rw [← h.1, hc, hb.1]; rfl
        · rw [← h.1]; simp
      · simp only [hc, if_neg, if_false, List.cons.injEq] at h
        have hrest := ih (a := p) (b := b) (by rw [hr, h.2])
        refine ⟨?_, ?_, hrest.2.2⟩
        · rw [← h.1, hrest.1]; rfl
        · rw [← h.1]
          intro hm
          rcases List.mem_cons.mp hm with hm | hm
          · exact hc hm.symm
          · exact hrest.2.1 hm

theorem processLine_comment (loc app line : List Char)
    (h : ['/', '*'].isPrefixOf line = true) :
    processLine loc app line = .ok line := by
  simp [processLine, h]

theorem processLine_no_sep (loc app line : List Char) (h : '=' ∉ line) :
    processLine loc app line = .ok line := by
  simp [processLine, h]

theorem processLine_single (loc app a b : List Char)
    (ha : '=' ∉ a) (hb : '=' ∉ b)
    (hcom : ['/', '*'].isPrefixOf (a ++ '=' :: b) = false) :
    processLine loc app (a ++ '=' :: b) = .ok (a ++ '=' :: pyReplace b loc app) := by
  have hmem : '=' ∈ a ++ '=' :: b := by simp
  have hsp : pySplit '=' (a ++ '=' :: b) = [a, b] := by
    rw [pySplit_append '=' a b ha, pySplit_of_not_mem '=' b hb]
  simp [processLine, hmem, hcom, hsp]

theorem processLine_multi (loc app a m r : List Char)
    (ha : '=' ∉ a) (hm : '=' ∉ m)
    (hcom : ['/', '*'].isPrefixOf (a ++ '=' :: (m ++ '=' :: r)) = false) :
    processLine loc app (a ++ '=' :: (m ++ '=' :: r)) = .error "ValueError" := by
  have hmem : '=' ∈ a ++ '=' :: (m ++ '=' :: r) := by simp
  have hsp : pySplit '=' (a ++ '=' :: (m ++ '=' :: r)) = a :: m :: pySplit '=' r := by
    rw [pySplit_append '=' a _ ha, pySplit_append '=' m r hm]
  cases hps : pySplit '=' r with
  | nil => exact absurd hps (pySplit_ne_nil _ _)
  | cons p ps =>
    rw [hps] at hsp
    simp [processLine, hmem, hcom, hsp]

theorem mapLines_ok_of_id (f : List Char → Except String (List Char))
    (lines : List (List Char)) (h : ∀ l ∈ lines, f l = .ok l) :
    mapLines f lines = .ok lines := by
  induction lines with
  | nil => rfl
  | cons l rest ih =>
    simp only [mapLines, h l (List.mem_cons_self _ _),
      ih (fun x hx => h x (List.mem_cons_of_mem _ hx))]

theorem mapLines_mem (f : List Char → Except String (List Char))
    (lines out : List (List Char)) (h : mapLines f lines = .ok out) :
    ∀ l ∈ out, ∃ l0 ∈ lines, f l0 = .ok l := by
  induction lines generalizing out with
  | nil =>
    simp only [mapLines, Except.ok.injEq] at h
    subst h
    intro l hl
    simp at hl
  | cons l0 rest ih =>
    intro l hl
    cases hf : f l0 with
    | error e => simp [mapLines, hf] at h
    | ok l2 =>
      cases hm : mapLines f rest with
      | error e => simp [mapLines, hf, hm] at h
      | ok rest2 =>
        simp only [mapLines, hf, hm, Except.ok.injEq] at h
        subst h
        rcases List.mem_cons.mp hl with hl | hl
        · exact ⟨l0, List.mem_cons_self _ _, by rw [hf, hl]⟩
        · rcases ih rest2 hm l hl with ⟨g, hg, hfg⟩
          exact ⟨g, List.mem_cons_of_mem _ hg, hfg⟩

theorem map_fixed_of_mem {α : Type} (f : α → α) (xs : List α)
    (h : ∀ x ∈ xs, f x = x) : xs.map f = xs := by
  induction xs with
  | nil => rfl
  | cons x rest ih =>
    simp only [List.map_cons, h x (List.mem_cons_self _ _),
      ih (fun y hy => h y (List.mem_cons_of_mem _ hy))]

theorem processLine_round2 (loc app l0 l : List Char)
    (h1 : processLine loc app l0 = .ok l)
    (happ : '=' ∉ app)
    (hsub : containsSub l loc = false) :
    processLine loc app l = .ok l := by
  by_cases hg : ('=' ∈ l0) ∧ (['/', '*'].isPrefixOf l0 = false)
  case neg =>
    have he : l0 = l := by
      unfold processLine at h1
      rw [if_neg hg] at h1
      exact Except.ok.inj h1
    rw [← he] at hsub ⊢
    unfold processLine
    rw [if_neg hg]
  case pos =>
    unfold processLine at h1
    rw [if_pos hg] at h1
    cases hsp : pySplit '=' l0 with
    | nil => exact absurd hsp (pySplit_ne_nil _ _)
    | cons a ps =>
      cases ps with
      | nil => rw [hsp] at h1; simp at h1
      | cons b ps2 =>
        cases ps2 with
        | cons x xs => rw [hsp] at h1; simp at h1
        | nil =>
          rw [hsp] at h1
          simp only [Except.ok.injEq] at h1
          have hpair := pySplit_pair '=' l0 a b hsp
          have hl : l = a ++ '=' :: pyReplace b loc app := h1.symm
          have hb2 : '=' ∉ pyReplace b loc app := by
            intro hm
            rcases mem_pyReplace b loc app '=' hm with hm | hm
            · exact hpair.2.2 hm
            · exact happ hm
          have hsubb : containsSub (pyReplace b loc app) loc = false := by
            rw [hl] at hsub
            exact containsSub_cons_tail _ _ _ (containsSub_append_false a _ loc hsub)
          by_cases hg2 : ('=' ∈ l) ∧ (['/', '*'].isPrefixOf l = false)
          · have hsp2 : pySplit '=' l = [a, pyReplace b loc app] := by
              rw [hl, pySplit_append '=' a _ hpair.2.1,
                pySplit_of_not_mem '=' _ hb2]
            unfold processLine
            rw [if_pos hg2, hsp2]
            simp only [Except.ok.injEq]
            rw [pyReplace_of_not_contains _ loc app hsubb, ← hl]
          · unfold processLine
            rw [if_neg hg2]

theorem stringsLineOps_of_ok (bak : String) (loc app : List Char) :
    ∀ (lines out : List (List Char)),
    mapLines (processLine loc app) lines = .ok out →
    stringsLineOps bak loc app lines = (out.map (FsOp.appendLine bak), none) := by
  intro lines
  induction lines with
  | nil =>
    intro out h
    simp only [mapLines, Except.ok.injEq] at h
    subst h
    rfl
  | cons l rest ih =>
    intro out h
    cases hf : processLine loc app l with
    | error e => simp [mapLines, hf] at h
    | ok l2 =>
      cases hm : mapLines (processLine loc app) rest with
      | error e => simp [mapLines, hf, hm] at h
      | ok rest2 =>
        simp only [mapLines, hf, hm, Except.ok.injEq] at h
        subst h
        simp only [stringsLineOps, hf, ih rest2 hm, List.map_cons]

theorem appendLines_untouched (bak q : String) (ws : List (List Char))
    (hq : q ≠ bak) :
    ∀ op ∈ ws.map (FsOp.appendLine bak), opTouches op q = false := by
  intro op hop
  rcases List.mem_map.mp hop with ⟨l, _, h⟩
  subst h
  simp [opTouches, hq]

theorem applyOps_appendLines (bak : String) (ws : List (List Char)) :
    ∀ (fs : FS) (e : Enc) (acc : List (List Char)), fs bak = some ⟨e, acc⟩ →
    applyOps fs (ws.map (FsOp.appendLine bak)) bak = some ⟨e, acc ++ ws⟩ := by
  induction ws with
  | nil => intro fs e acc h; simpa [applyOps] using h
  | cons w rest ih =>
    intro fs e acc h
    rw [List.map_cons, applyOps_cons]
    have h2 : applyOp fs (FsOp.appendLine bak w) bak = some ⟨e, acc ++ [w]⟩ := by
      simp [applyOp, h]
    rw [ih _ e (acc ++ [w]) h2, List.append_assoc]
    rfl

theorem applyOps_nil (fs : FS) : applyOps fs [] = fs := rfl

theorem applyOp_rename_dst (g : FS) (src dst : String) :
    applyOp g (FsOp.renameFile src dst) dst = g src := by
  simp [applyOp]

theorem applyOp_remove_other (g : FS) (p q : String) (h : q ≠ p) :
    applyOp g (FsOp.removeFile p) q = g q := by
  simp [applyOp, h]

theorem replace_strings_run_ok_shape (fs : FS) (file code app : String)
    (localized : String) (lines out : List (List Char))
    (hl : lookupLoc APPNAME_LOCALIZED code = some localized)
    (hf : fs file = some ⟨Enc.utf16, lines⟩)
    (hok : mapLines (processLine localized.data app.data) lines = .ok out) :
    replace_strings_run fs file code app =
      (FsOp.createFile (file ++ ".bak") Enc.utf16 ::
        (out.map (FsOp.appendLine (file ++ ".bak")) ++
          [FsOp.removeFile file, FsOp.renameFile (file ++ ".bak") file]), none) := by
  unfold replace_strings_run
  rw [hl, hf]
  have hops := stringsLineOps_of_ok (file ++ ".bak") localized.data app.data lines out hok
  simp [hops]

/-- C6: when a .strings file is rewritten, the effect trace writes the full
replacement content to the shadow (.bak) file first, only then removes the
original and renames the shadow over it; applying any prefix of the trace
that ends during the write phase leaves the original file untouched, and
applying the full trace installs exactly the replacement content. -/
theorem C6_strings_shadow_swap
    (fs : FS) (file code appname : String) (lines out : List (List Char)) (k : Nat)
    (hf : fs file = some ⟨Enc.utf16, lines⟩)
    (hok : replace_strings code appname lines = .ok out)
    (hk : k ≤ 1 + out.length) :
    (replace_strings_run fs file code appname).1 =
      (FsOp.createFile (file ++ ".bak") Enc.utf16 ::
        out.map (FsOp.appendLine (file ++ ".bak"))) ++
        [FsOp.removeFile file, FsOp.renameFile (file ++ ".bak") file] ∧
    applyOps fs ((replace_strings_run fs file code appname).1.take k) file = fs file ∧
    applyOps fs (replace_strings_run fs file code appname).1 file = some ⟨Enc.utf16, out⟩ := by
  cases hl : lookupLoc APPNAME_LOCALIZED code with
  | none => simp [replace_strings, hl] at hok
  | some localized =>
    have hm : mapLines (processLine localized.data appname.data) lines = .ok out := by
      simpa [replace_strings, hl] using hok
    have hshape := replace_strings_run_ok_shape fs file code appname localized lines out hl hf hm
    have hops1 : (replace_strings_run fs file code appname).1 =
        (FsOp.createFile (file ++ ".bak") Enc.utf16 ::
          out.map (FsOp.appendLine (file ++ ".bak"))) ++
          [FsOp.removeFile file, FsOp.renameFile (file ++ ".bak") file] := by
      rw [hshape, List.cons_append]
    have hfile_ne : file ≠ file ++ ".bak" := Ne.symm (bak_ne file)
    have hpre : ∀ op ∈ FsOp.createFile (file ++ ".bak") Enc.utf16 ::
        out.map (FsOp.appendLine (file ++ ".bak")), opTouches op file = false := by
      intro op hop
      rcases List.mem_cons.mp hop with h | h
      · subst h; simp [opTouches, hfile_ne]
      · exact appendLines_untouched _ _ _ hfile_ne op h
    refine ⟨hops1, ?_, ?_⟩
    · rw [hops1, List.take_append_of_le_length
        (by rw [List.length_cons, List.length_map]; omega)]
      exact applyOps_untouched _ fs file
        (fun op hop => hpre op (List.take_subset _ _ hop))
    · rw [hops1, applyOps_append]
      have hbak : applyOps fs (FsOp.createFile (file ++ ".bak") Enc.utf16 ::
          out.map (FsOp.appendLine (file ++ ".bak"))) (file ++ ".bak") =
          some ⟨Enc.utf16, out⟩ := by
        rw [applyOps_cons]
        have hc : applyOp fs (FsOp.createFile (file ++ ".bak") Enc.utf16)
            (file ++ ".bak") = some ⟨Enc.utf16, []⟩ := by simp [applyOp]
        rw [applyOps_appendLines _ _ _ Enc.utf16 [] hc]
        rfl
      rw [applyOps_cons, applyOps_cons, applyOps_nil, applyOp_rename_dst,
        applyOp_remove_other _ _ _ (bak_ne file), hbak]

theorem replace_nib_run_shape (fs : FS) (file code app localized : String)
    (d : List (List Char))
    (hl : lookupLoc APPNAME_LOCALIZED code = some localized)
    (hf : fs file = some ⟨Enc.binPlist, d⟩) :
    replace_nib_run fs file code app =
      (FsOp.plistToXml file :: FsOp.createFile (file ++ ".bak") Enc.xmlPlist ::
        (d.map (fun l => FsOp.appendLine (file ++ ".bak") (pyReplace l localized.data app.data)) ++
         [FsOp.removeFile file, FsOp.renameFile (file ++ ".bak") file,
          FsOp.plistToBinary file]), none) := by
  unfold replace_nib_run
  rw [hl, hf]
  simp

/-- C9: the first effect of replace_nib converts the .nib file in place to its
xml text form, before the shadow file even exists; this happens for every
content, occurrence or not; a crash at any point after that conversion and
before the original is removed leaves the file in the converted text form,
which differs from the original binary bytes; the full trace re-encodes
the substituted lines back to binary. -/
theorem C9_nib_inplace_convert
    (fs : FS) (file code appname localized : String) (d : List (List Char)) (k : Nat)
    (hl : lookupLoc APPNAME_LOCALIZED code = some localized)
    (hf : fs file = some ⟨Enc.binPlist, d⟩)
    (h1 : 1 ≤ k) (h2 : k ≤ 2 + d.length) :
    (replace_nib_run fs file code appname).1.head? = some (FsOp.plistToXml file) ∧
    applyOps fs ((replace_nib_run fs file code appname).1.take k) file =
      some ⟨Enc.xmlPlist, d⟩ ∧
    some ⟨Enc.xmlPlist, d⟩ ≠ fs file ∧
    applyOps fs (replace_nib_run fs file code appname).1 file =
      some ⟨Enc.binPlist, replace_nib_lines localized appname d⟩ := by
  have hshape := replace_nib_run_shape fs file code appname localized d hl hf
  have hfile_ne : file ≠ file ++ ".bak" := Ne.symm (bak_ne file)
  have hfs1 : applyOp fs (FsOp.plistToXml file) file = some ⟨Enc.xmlPlist, d⟩ := by
    simp [applyOp, hf]
  have hpre : ∀ op ∈ FsOp.createFile (file ++ ".bak") Enc.xmlPlist ::
      d.map (fun l => FsOp.appendLine (file ++ ".bak") (pyReplace l localized.data appname.data)),
      opTouches op file = false := by
    intro op hop
    rcases List.mem_cons.mp hop with h | h
    · subst h; simp [opTouches, hfile_ne]
    · rcases List.mem_map.mp h with ⟨l, _, h⟩
      subst h; simp [opTouches, hfile_ne]
  refine ⟨by rw [hshape]; rfl, ?_, ?_, ?_⟩
  · cases k with
    | zero => omega
    | succ j =>
      have hops1 : (replace_nib_run fs file code appname).1 =
          FsOp.plistToXml file ::
            ((FsOp.createFile (file ++ ".bak") Enc.xmlPlist ::
              d.map (fun l => FsOp.appendLine (file ++ ".bak") (pyReplace l localized.data appname.data))) ++
             [FsOp.removeFile file, FsOp.renameFile (file ++ ".bak") file,
              FsOp.plistToBinary file]) := by
        rw [hshape, List.cons_append]
      rw [hops1, List.take_succ_cons, applyOps_cons]
      rw [List.take_append_of_le_length
        (by rw [List.length_cons, List.length_map]; omega)]
      rw [applyOps_untouched _ _ file
        (fun op hop => hpre op (List.take_subset _ _ hop))]
      exact hfs1
  · intro he
    rw [hf] at he
    simp at he
  · have hops1 : (replace_nib_run fs file code appname).1 =
        FsOp.plistToXml file ::
          ((FsOp.createFile (file ++ ".bak") Enc.xmlPlist ::
            d.map (fun l => FsOp.appendLine (file ++ ".bak") (pyReplace l localized.data appname.data))) ++
           [FsOp.removeFile file, FsOp.renameFile (file ++ ".bak") file,
            FsOp.plistToBinary file]) := by
      rw [hshape, List.cons_append]
    rw [hops1, applyOps_cons, applyOps_append]
    have hbak2 : applyOps (applyOp fs (FsOp.plistToXml file))
        (FsOp.createFile (file ++ ".bak") Enc.xmlPlist ::
          d.map (fun l => FsOp.appendLine (file ++ ".bak") (pyReplace l localized.data appname.data)))
        (file ++ ".bak") =
        some ⟨Enc.xmlPlist, d.map (fun l => pyReplace l localized.data appname.data)⟩ := by
      rw [applyOps_cons]
      have hc : applyOp (applyOp fs (FsOp.plistToXml file))
          (FsOp.createFile (file ++ ".bak") Enc.xmlPlist) (file ++ ".bak") =
          some ⟨Enc.xmlPlist, []⟩ := by simp [applyOp]
      have hmm : d.map (fun l => FsOp.appendLine (file ++ ".bak") (pyReplace l localized.data appname.data)) =
          (d.map (fun l => pyReplace l localized.data appname.data)).map
            (FsOp.appendLine (file ++ ".bak")) := by
        rw [List.map_map]
        rfl
      rw [hmm, applyOps_appendLines _ _ _ Enc.xmlPlist [] hc]
      rfl
    rw [applyOps_cons, applyOps_cons, applyOps_cons, applyOps_nil]
    have hg : applyOp (applyOp (applyOps (applyOp fs (FsOp.plistToXml file))
        (FsOp.createFile (file ++ ".bak") Enc.xmlPlist ::
          d.map (fun l => FsOp.appendLine (file ++ ".bak") (pyReplace l localized.data appname.data))))
        (FsOp.removeFile file)) (FsOp.renameFile (file ++ ".bak") file) file =
        some ⟨Enc.xmlPlist, d.map (fun l => pyReplace l localized.data appname.data)⟩ := by
      rw [applyOp_rename_dst, applyOp_remove_other _ _ _ (bak_ne file)]
      exact hbak2
    have hptb : ∀ g : FS, applyOp g (FsOp.plistToBinary file) file =
        (g file).map (fun x => ⟨Enc.binPlist, x.lines⟩) := by
      intro g; simp [applyOp]
    rw [hptb, hg]
    rfl

/-- Whether an effect removes a file or a directory tree. -/
def isRemovalOp : FsOp → Bool
  | FsOp.removeFile _ => true
  | FsOp.removeTree _ => true
  | _ => false

theorem convert_to_icns_tail_untouched (png td : String) :
    ∀ op ∈ FsOp.mkdirDir (td ++ "/AppIcns.iconset") ::
      (ICON_SIZES.map (fun hs => FsOp.sipsResample hs.1 png
        (td ++ "/AppIcns.iconset" ++ "/icon_" ++ hs.2 ++ ".png")) ++
       [FsOp.iconutilCompile (td ++ "/AppIcns.iconset") (td ++ "/AppIcns.icns")]),
    opTouches op td = false := by
  have key : ∀ t : String, t.length ≠ 0 → td ≠ td ++ t :=
    fun t ht he => append_ne_self td t ht he.symm
  have hlen : ∀ X : String, ("/AppIcns.iconset/icon_" ++ X).length ≠ 0 := by
    intro X
    rw [String.length_append]
    have h22 : ("/AppIcns.iconset/icon_" : String).length = 22 := by decide
    omega
  intro op hop
  rcases List.mem_cons.mp hop with h | h
  · subst h
    simp [opTouches, key "/AppIcns.iconset" (by decide)]
  · rcases List.mem_append.mp h with h | h
    · rcases List.mem_map.mp h with ⟨hs, _, h⟩
      subst h
      have hd : td ++ "/AppIcns.iconset" ++ "/icon_" ++ hs.2 ++ ".png" =
          td ++ ("/AppIcns.iconset/icon_" ++ (hs.2 ++ ".png")) := by
        simp [String.append_assoc]
      simp only [opTouches, hd]
      simp [key _ (hlen _)]
    · simp only [List.mem_singleton] at h
      subst h
      simp [opTouches, key "/AppIcns.icns" (by decide)]

/-- C4, amended: RECIPE_CACHE_DIR is passed to convert_to_icns as its
output_dir argument but output_dir is never used; the staging location of
the iconset and the compiled .icns is the fresh temporary directory, so the
result is the same whatever output_dir is supplied. -/
theorem C4_output_dir_unused (png o1 o2 td : String) :
    convert_to_icns png o1 td = convert_to_icns png o2 td ∧
    (convert_to_icns png o1 td).2 = td ++ "/AppIcns.icns" ∧
    (convert_to_icns png o1 td).1.head? = some (FsOp.mkdtempDir td) ∧
    td.data.isPrefixOf (convert_to_icns png o1 td).2.data = true :=
  ⟨rfl, rfl, rfl, isPrefixOf_append_self td _⟩

/-- C4, counterexample: at a concrete call the compiled .icns lands inside
the fresh temporary directory, not inside the supplied cache directory, and
the output is insensitive to the cache directory argument. -/
theorem C4_counterexample :
    convert_to_icns "/in/icon.png" "/cache" "/tmp/t0" =
      convert_to_icns "/in/icon.png" "/other" "/tmp/t0" ∧
    (convert_to_icns "/in/icon.png" "/cache" "/tmp/t0").2 = "/tmp/t0/AppIcns.icns" ∧
    "/cache".data.isPrefixOf "/tmp/t0/AppIcns.icns".data = false :=
  ⟨rfl, rfl, by decide⟩

/-- C5, amended: the temporary directory created by convert_to_icns is
never removed: the trace contains no removal effect, and from the moment
the first effect creates the directory it still exists after every prefix
of the trace, the complete trace included. -/
theorem C5_tempdir_never_removed (png o td : String) (fs : FS) (k : Nat)
    (hk : 1 ≤ k) :
    (convert_to_icns png o td).1.any isRemovalOp = false ∧
    applyOps fs ((convert_to_icns png o td).1.take k) td = some ⟨Enc.dirE, []⟩ := by
  constructor
  · rw [List.any_eq_false]
    intro op hop
    simp only [convert_to_icns] at hop
    rcases List.mem_cons.mp hop with h | h
    · subst h; simp [isRemovalOp]
    · rcases List.mem_cons.mp h with h | h
      · subst h; simp [isRemovalOp]
      · rcases List.mem_append.mp h with h | h
        · rcases List.mem_map.mp h with ⟨hs, _, h⟩
          subst h; simp [isRemovalOp]
        · simp only [List.mem_singleton] at h
          subst h; simp [isRemovalOp]
  · cases k with
    | zero => omega
    | succ j =>
      have hops : (convert_to_icns png o td).1 =
          FsOp.mkdtempDir td ::
            (FsOp.mkdirDir (td ++ "/AppIcns.iconset") ::
              (ICON_SIZES.map (fun hs => FsOp.sipsResample hs.1 png
                (td ++ "/AppIcns.iconset" ++ "/icon_" ++ hs.2 ++ ".png")) ++
               [FsOp.iconutilCompile (td ++ "/AppIcns.iconset") (td ++ "/AppIcns.icns")])) := rfl
      rw [hops, List.take_succ_cons, applyOps_cons]
      have hcreate : applyOp fs (FsOp.mkdtempDir td) td = some ⟨Enc.dirE, []⟩ := by
        simp [applyOp]
      rw [applyOps_untouched _ _ td
        (fun op hop => convert_to_icns_tail_untouched png td op
          (List.take_subset _ _ hop))]
      exact hcreate

/-- C5, counterexample: on the completed call (one exit path), the
temporary directory still exists and no effect of the call removes
anything, refuting removal on all exit paths. -/
theorem C5_counterexample :
    (convert_to_icns "/in/icon.png" "/cache" "/tmp/t0").1.any isRemovalOp = false ∧
    applyOps (fun _ => none) (convert_to_icns "/in/icon.png" "/cache" "/tmp/t0").1
      "/tmp/t0" = some ⟨Enc.dirE, []⟩ := by
  constructor
  · rfl
  · decide

/-- C8: a line that begins the comment marker is passed through the line
loop of replace_strings unmodified and written to the shadow file as-is,
even when it contains the assignment separator. -/
theorem C8_comment_line_unmodified (loc app : List Char) (bak : String)
    (line : List Char) (rest : List (List Char))
    (hc : ['/', '*'].isPrefixOf line = true) :
    processLine loc app line = .ok line ∧
    stringsLineOps bak loc app (line :: rest) =
      (FsOp.appendLine bak line :: (stringsLineOps bak loc app rest).1,
       (stringsLineOps bak loc app rest).2) := by
  refine ⟨processLine_comment loc app line hc, ?_⟩
  simp [stringsLineOps, processLine_comment loc app line hc]

/-- C8 witness: a concrete comment line containing the separator survives
the rewrite byte-for-byte. -/
theorem C8_comment_line_unmodified_witness :
    processLine "Managed Software Center".data "Ace".data "/* a = b */".data =
      .ok "/* a = b */".data ∧
    stringsLineOps "/f.strings.bak" "Managed Software Center".data "Ace".data
      ["/* a = b */".data] =
      (FsOp.appendLine "/f.strings.bak" "/* a = b */".data ::
        (stringsLineOps "/f.strings.bak" "Managed Software Center".data "Ace".data []).1,
       (stringsLineOps "/f.strings.bak" "Managed Software Center".data "Ace".data []).2) :=
  C8_comment_line_unmodified "Managed Software Center".data "Ace".data
    "/f.strings.bak" "/* a = b */".data [] (by decide)

/-- C10: when either required input is absent from the environment, main
performs no effect and raises no error, although both inputs are declared
required in input_variables. -/
theorem C10_missing_required_inputs_silent (tm : TreeModel) (fs : FS) (env : Env)
    (h : env.unpacked_path = none ∨ env.app_name = none) :
    mainRun tm fs env = ([], none) ∧
    ("unpacked_path", true) ∈ input_variables ∧
    ("app_name", true) ∈ input_variables := by
  refine ⟨?_, by simp [input_variables], by simp [input_variables]⟩
  unfold mainRun
  rcases h with h | h
  · rw [h]
  · rw [h]; cases env.unpacked_path <;> rfl

/-- Whether an effect is an icon copy (shutil.copyfile). -/
def isCopyOp : FsOp → Bool
  | FsOp.copyFile _ _ => true
  | _ => false

theorem stringsLineOps_nocopy (bak : String) (loc app : List Char)
    (lines : List (List Char)) :
    ∀ op ∈ (stringsLineOps bak loc app lines).1, isCopyOp op = false := by
  induction lines with
  | nil => intro op h; simp [stringsLineOps] at h
  | cons l rest ih =>
    intro op h
    cases hpl : processLine loc app l with
    | error e => simp [stringsLineOps, hpl] at h
    | ok l2 =>
      simp only [stringsLineOps, hpl] at h
      rcases List.mem_cons.mp h with h | h
      · subst h; rfl
      · exact ih op h

theorem replace_strings_run_nocopy (fs : FS) (file code app : String) :
    ∀ op ∈ (replace_strings_run fs file code app).1, isCopyOp op = false := by
  intro op hop
  cases hl : lookupLoc APPNAME_LOCALIZED code with
  | none => simp [replace_strings_run, hl] at hop
  | some localized =>
    cases hf : fs file with
    | none =>
      simp [replace_strings_run, hl, hf] at hop
      subst hop; rfl
    | some d =>
      by_cases he : d.enc = Enc.utf16
      · cases hr : (stringsLineOps (file ++ ".bak") localized.data app.data d.lines).2 with
        | some err =>
          simp only [replace_strings_run, hl, hf, he, if_pos, hr] at hop
          rcases List.mem_cons.mp hop with h | h
          · subst h; rfl
          · exact stringsLineOps_nocopy _ _ _ _ op h
        | none =>
          simp only [replace_strings_run, hl, hf, he, if_pos, hr] at hop
          rcases List.mem_cons.mp hop with h | h
          · subst h; rfl
          · rcases List.mem_append.mp h with h | h
            · exact stringsLineOps_nocopy _ _ _ _ op h
            · rcases List.mem_cons.mp h with h | h
              · subst h; rfl
              · simp at h; subst h; rfl
      · simp [replace_strings_run, hl, hf, he] at hop
        subst hop; rfl

theorem replace_nib_run_nocopy (fs : FS) (file code app : String) :
    ∀ op ∈ (replace_nib_run fs file code app).1, isCopyOp op = false := by
  intro op hop
  cases hl : lookupLoc APPNAME_LOCALIZED code with
  | none => simp [replace_nib_run, hl] at hop
  | some localized =>
    cases hf : fs file with
    | none =>
      simp [replace_nib_run, hl, hf] at hop
      subst hop; rfl
    | some d =>
      by_cases he : d.enc = Enc.binPlist ∨ d.enc = Enc.xmlPlist
      · simp only [replace_nib_run, hl, hf, he, if_pos] at hop
        rcases List.mem_cons.mp hop with h | h
        · subst h; rfl
        · rcases List.mem_cons.mp h with h | h
          · subst h; rfl
          · rcases List.mem_append.mp h with h | h
            · rcases List.mem_map.mp h with ⟨l, _, h⟩
              subst h; rfl
            · rcases List.mem_cons.mp h with h | h
              · subst h; rfl
              · rcases List.mem_cons.mp h with h | h
                · subst h; rfl
                · simp at h; subst h; rfl
      · simp [replace_nib_run, hl, hf, he] at hop
        subst hop; rfl

theorem processFile_nocopy (fs : FS) (lfile code app : String) :
    ∀ op ∈ (processFile fs lfile code app).1, isCopyOp op = false := by
  intro op hop
  unfold processFile at hop
  by_cases hs : fnmatchStrings lfile = true
  · simp only [hs, if_pos] at hop
    cases hr : (replace_strings_run fs lfile code app).2 with
    | some e =>
      rw [hr] at hop
      exact replace_strings_run_nocopy fs lfile code app op hop
    | none =>
      rw [hr] at hop
      simp only [List.mem_append] at hop
      rcases hop with h | h
      · exact replace_strings_run_nocopy fs lfile code app op h
      · by_cases hn : fnmatchNib lfile = true
        · simp only [hn, if_pos] at h
          exact replace_nib_run_nocopy _ lfile code app op h
        · simp [hn] at h
  · simp only [Bool.not_eq_true] at hs
    simp only [hs, Bool.false_eq_true, if_false] at hop
    by_cases hn : fnmatchNib lfile = true
    · simp only [hn, if_pos, List.nil_append] at hop
      exact replace_nib_run_nocopy _ lfile code app op hop
    · simp [hn] at hop

theorem processFiles_nocopy (code app : String) (files : List String) :
    ∀ (fs : FS), ∀ op ∈ (processFiles code app fs files).1, isCopyOp op = false := by
  induction files with
  | nil => intro fs op hop; simp [processFiles] at hop
  | cons f rest ih =>
    intro fs op hop
    cases hr : (processFile fs f code app).2 with
    | some e =>
      simp only [processFiles, hr] at hop
      exact processFile_nocopy fs f code app op hop
    | none =>
      simp only [processFiles, hr, List.mem_append] at hop
      rcases hop with hop | hop
      · exact processFile_nocopy fs f code app op hop
      · exact ih _ op hop

theorem processLproj_nocopy (tm : TreeModel) (fs : FS) (lproj app : String) :
    ∀ op ∈ (processLproj tm fs lproj app).1, isCopyOp op = false := by
  intro op hop
  unfold processLproj at hop
  by_cases hk : (lookupLoc APPNAME_LOCALIZED (langCode lproj)).isSome = true
  · simp only [hk, if_pos] at hop
    exact processFiles_nocopy _ _ _ fs op hop
  · simp only [Bool.not_eq_true] at hk
    simp [hk] at hop

theorem processLprojs_nocopy (tm : TreeModel) (app : String) (dirs : List String) :
    ∀ (fs : FS), ∀ op ∈ (processLprojs tm app fs dirs).1, isCopyOp op = false := by
  induction dirs with
  | nil => intro fs op hop; simp [processLprojs] at hop
  | cons d rest ih =>
    intro fs op hop
    cases hr : (processLproj tm fs d app).2 with
    | some e =>
      simp only [processLprojs, hr] at hop
      exact processLproj_nocopy tm fs d app op hop
    | none =>
      simp only [processLprojs, hr, List.mem_append] at hop
      rcases hop with hop | hop
      · exact processLproj_nocopy tm fs d app op hop
      · exact ih _ op hop

theorem processApps_cons_icon_missing
    (tm : TreeModel) (env : Env) (path an ic : String) (a : AppSpec)
    (rest : List AppSpec) (fs : FS) (n : Nat)
    (hi : env.icon_file = some ic)
    (hmiss : fs ic = none)
    (hclash : ∀ d ∈ tm.lprojDirs (path ++ "/" ++ a.path),
      (lookupLoc APPNAME_LOCALIZED (langCode d)).isSome = true →
      ∀ f ∈ tm.walkFiles d, ic ≠ f ∧ ic ≠ f ++ ".bak") :
    (processApps tm env path an fs n (a :: rest)).2.isSome = true ∧
    ∀ s d2, FsOp.copyFile s d2 ∉ (processApps tm env path an fs n (a :: rest)).1 := by
  cases hr1 : (processLprojs tm an fs (tm.lprojDirs (path ++ "/" ++ a.path))).2 with
  | some e =>
    constructor
    · simp [processApps, hr1]
    · intro s d2 hmem
      simp only [processApps, hr1] at hmem
      have := processLprojs_nocopy tm an _ fs _ hmem
      simp [isCopyOp] at this
  | none =>
    have hfs1 : applyOps fs
        (processLprojs tm an fs (tm.lprojDirs (path ++ "/" ++ a.path))).1 ic = none := by
      rw [applyOps_untouched _ _ _
        (processLprojs_untouched tm an _ fs ic hclash)]
      exact hmiss
    have hstep : iconStep tm
        (applyOps fs (processLprojs tm an fs (tm.lprojDirs (path ++ "/" ++ a.path))).1)
        env path a n = ([], some ("ProcessorError: " ++ ic ++ " does not exist!")) := by
      unfold iconStep
      rw [hi]
      simp [hfs1]
    constructor
    · simp [processApps, hr1, hstep]
    · intro s d2 hmem
      simp only [processApps, hr1, hstep, List.append_nil] at hmem
      have := processLprojs_nocopy tm an _ fs _ hmem
      simp [isCopyOp] at this

/-- C1, amended: when the supplied icon path does not exist, the run aborts
with a raised error and never copies an icon into the tree; but the abort
happens only at the icon block of the first target application, after that
localization files of that application have already been rewritten (the
counterexample exhibits a rewritten .strings file at the moment the
ProcessorError is raised). -/
theorem C1_icon_missing_aborts
    (tm : TreeModel) (fs : FS) (env : Env) (path an ic : String)
    (hp : env.unpacked_path = some path)
    (ha : env.app_name = some an)
    (hi : env.icon_file = some ic)
    (hmiss : fs ic = none)
    (hclash : ∀ d ∈ tm.lprojDirs (path ++ "/" ++ MSC_APP.path),
      (lookupLoc APPNAME_LOCALIZED (langCode d)).isSome = true →
      ∀ f ∈ tm.walkFiles d, ic ≠ f ∧ ic ≠ f ++ ".bak") :
    (mainRun tm fs env).2.isSome = true ∧
    ∀ s d2, FsOp.copyFile s d2 ∉ (mainRun tm fs env).1 := by
  have hm : mainRun tm fs env = processApps tm env path an fs 0 (MSC_APP :: [MS_APP]) := by
    unfold mainRun
    rw [hp, ha]
    rfl
  rw [hm]
  exact processApps_cons_icon_missing tm env path an ic MSC_APP [MS_APP] fs 0
    hi hmiss hclash

/-- C7: an lproj directory whose derived language code is not a key of
APPNAME_LOCALIZED is skipped wholesale, with no effects and no error; and
the whole run leaves every path untouched that is not a rewritten file (or
its shadow) of a known-language directory, not a target icon path and not
inside a temporary staging directory — in particular every file under an
unknown-language directory, which in a real tree is none of those. -/
theorem C7_unknown_lproj_untouched
    (tm : TreeModel) (fs : FS) (env : Env) (path q : String)
    (hp : env.unpacked_path = some path)
    (hfiles : ∀ a ∈ APPS, ∀ d ∈ tm.lprojDirs (path ++ "/" ++ a.path),
      (lookupLoc APPNAME_LOCALIZED (langCode d)).isSome = true →
      ∀ f ∈ tm.walkFiles d, q ≠ f ∧ q ≠ f ++ ".bak")
    (hicon : ∀ a ∈ APPS, q ≠ path ++ "/" ++ a.path ++ "/" ++ a.icon)
    (htmp : ∀ m : Nat, (tm.tempDir m).data.isPrefixOf q.data = false) :
    applyOps fs (mainRun tm fs env).1 q = fs q ∧
    (∀ (fs2 : FS) (lproj an : String),
      lookupLoc APPNAME_LOCALIZED (langCode lproj) = none →
      processLproj tm fs2 lproj an = ([], none)) := by
  constructor
  · cases ha : env.app_name with
    | none =>
      have hm : mainRun tm fs env = ([], none) := by
        unfold mainRun
        rw [hp, ha]
      rw [hm]
      rfl
    | some an =>
      have hm : mainRun tm fs env = processApps tm env path an fs 0 APPS := by
        unfold mainRun
        rw [hp, ha]
      rw [hm]
      exact applyOps_untouched _ fs q
        (processApps_untouched tm env path an APPS fs 0 q hfiles hicon htmp)
  · intro fs2 lproj an hn
    unfold processLproj
    rw [hn]
    rfl

/-- C2, amended: for a non-comment line containing exactly one separator,
the line loop of replace_strings splits at that separator, substitutes only
in the right-hand segment, and succeeds; but a non-comment line containing
more than one separator raises ValueError (the line is split at every
separator and the two-variable unpacking fails), aborting the run. -/
theorem C2_split_and_multisep (loc app : List Char) :
    (∀ a b : List Char, '=' ∉ a → '=' ∉ b →
      ['/', '*'].isPrefixOf (a ++ '=' :: b) = false →
      processLine loc app (a ++ '=' :: b) = .ok (a ++ '=' :: pyReplace b loc app)) ∧
    (∀ a m r : List Char, '=' ∉ a → '=' ∉ m →
      ['/', '*'].isPrefixOf (a ++ '=' :: (m ++ '=' :: r)) = false →
      processLine loc app (a ++ '=' :: (m ++ '=' :: r)) = .error "ValueError") :=
  ⟨processLine_single loc app, processLine_multi loc app⟩

/-- C2, counterexample: a .strings line with two separators on it makes
replace_strings raise (ValueError) instead of succeeding. -/
theorem C2_counterexample :
    replace_strings "en" "Ace" ["\"KEY\" = \"A = B\";".data] =
      .error "ValueError" := by
  rfl

/-- C3, amended: the rewrite is idempotent exactly under the proviso the spec itself makes: if the first run leaves no occurrence of the localized name in its
output (and the desired name does not itself contain the separator, which
would break the line), the second .strings run returns its input unchanged,
and likewise the .nib substitution pass is a fixpoint on any content with
no remaining occurrence. -/
theorem C3_idempotent_when_no_residual
    (code appname localized : String) (lines out : List (List Char))
    (d : List (List Char))
    (hl : lookupLoc APPNAME_LOCALIZED code = some localized)
    (happ : '=' ∉ appname.data)
    (h1 : replace_strings code appname lines = .ok out)
    (hno : ∀ l ∈ out, containsSub l localized.data = false)
    (hnd : ∀ l ∈ replace_nib_lines localized appname d,
      containsSub l localized.data = false) :
    replace_strings code appname out = .ok out ∧
    replace_nib_lines localized appname (replace_nib_lines localized appname d) =
      replace_nib_lines localized appname d := by
  constructor
  · have hm : mapLines (processLine localized.data appname.data) lines = .ok out := by
      simpa [replace_strings, hl] using h1
    have hid : ∀ l ∈ out, processLine localized.data appname.data l = .ok l := by
      intro l hlmem
      rcases mapLines_mem _ lines out hm l hlmem with ⟨l0, _, hf⟩
      exact processLine_round2 localized.data appname.data l0 l hf happ (hno l hlmem)
    simp only [replace_strings, hl]
    exact mapLines_ok_of_id _ out hid
  · exact map_fixed_of_mem _ _
      (fun l hlm => pyReplace_of_not_contains l localized.data appname.data (hnd l hlm))

/-- C3, counterexample: with a desired name that contains the localized
name, the second run changes the file again, refuting unconditional
idempotence. -/
theorem C3_counterexample :
    replace_strings "en" "Managed Software Center 2"
      ["\"T\" = \"Managed Software Center\";".data] =
      .ok ["\"T\" = \"Managed Software Center 2\";".data] ∧
    replace_strings "en" "Managed Software Center 2"
      ["\"T\" = \"Managed Software Center 2\";".data] =
      .ok ["\"T\" = \"Managed Software Center 2 2\";".data] ∧
    ("\"T\" = \"Managed Software Center 2 2\";".data : List Char) ≠
      "\"T\" = \"Managed Software Center 2\";".data := by
  refine ⟨?_, ?_, by decide⟩ <;>
    simp [replace_strings, lookupLoc, APPNAME_LOCALIZED, mapLines, processLine,
      pySplit, pyReplace, List.isPrefixOf]

/-- A concrete tree for the missing-icon scenario: the resources of the first application
hold a single en.lproj directory with one .strings file. -/
def tmC1 : TreeModel :=
  ⟨fun r => if r = "/u/" ++ MSC_APP.path then ["/u/" ++ MSC_APP.path ++ "/en.lproj"] else [],
   fun d => if d = "/u/" ++ MSC_APP.path ++ "/en.lproj" then
     ["/u/" ++ MSC_APP.path ++ "/en.lproj/i.strings"] else [],
   fun _ => "/tmp/t0"⟩

/-- The matching filesystem: the .strings file holds one localizable line;
the supplied icon path /missing.png does not exist. -/
def fsC1 : FS := fun p =>
  if p = "/u/" ++ MSC_APP.path ++ "/en.lproj/i.strings" then
    some ⟨Enc.utf16, ["\"T\" = \"Managed Software Center\";".data]⟩
  else none

/-- The environment for the missing-icon scenario. -/
def envC1 : Env := ⟨some "/u", some "Ace", some "/missing.png", some "/cache"⟩

/-- C1, counterexample: with the icon path missing, the run does abort with
the ProcessorError, but by that time the .strings file of the first
application has already been rewritten, refuting the claim that the error
is raised before any resource file is touched. -/
theorem C1_counterexample :
    (mainRun tmC1 fsC1 envC1).2 =
      some ("ProcessorError: " ++ "/missing.png" ++ " does not exist!") ∧
    applyOps fsC1 (mainRun tmC1 fsC1 envC1).1
        ("/u/" ++ MSC_APP.path ++ "/en.lproj/i.strings") ≠
      fsC1 ("/u/" ++ MSC_APP.path ++ "/en.lproj/i.strings") := by
  constructor
  · rfl
  · have hs1 : fnmatchStrings
        "/u/Applications/Managed Software Center.app/Contents/Resources/en.lproj/i.strings" =
        true := by decide
    have hs2 : fnmatchNib
        "/u/Applications/Managed Software Center.app/Contents/Resources/en.lproj/i.strings" =
        false := by decide
    simp [mainRun, processApps, APPS, processLprojs, processLproj, processFiles,
      processFile, replace_strings_run, stringsLineOps, processLine, pySplit,
      pyReplace, List.isPrefixOf, langCode, basename, lookupLoc,
      APPNAME_LOCALIZED, hs1, hs2, iconStep,
      applyOps, applyOp, tmC1, fsC1, envC1, MSC_APP, MS_APP]

/-- C1 witness: the amended statement holds at the concrete missing-icon
scenario: the run reports an error and never copies an icon. -/
theorem C1_icon_missing_aborts_witness :
    (mainRun tmC1 fsC1 envC1).2.isSome = true ∧
    FsOp.copyFile "/missing.png" "/u" ∉ (mainRun tmC1 fsC1 envC1).1 := by
  have h := C1_icon_missing_aborts tmC1 fsC1 envC1 "/u" "Ace" "/missing.png"
    rfl rfl rfl rfl (by decide)
  exact ⟨h.1, h.2 "/missing.png" "/u"⟩

/-- C2 witness: one concrete single-separator line rewrites on the right of
the separator, one concrete double-separator line raises ValueError. -/
theorem C2_split_and_multisep_witness :
    processLine "Managed Software Center".data "Ace".data
        ("\"T\" ".data ++ '=' :: " \"MSC\";".data) =
      .ok ("\"T\" ".data ++ '=' ::
        pyReplace " \"MSC\";".data "Managed Software Center".data "Ace".data) ∧
    processLine "Managed Software Center".data "Ace".data
        ("\"K\" ".data ++ '=' :: (" \"A ".data ++ '=' :: " B\";".data)) =
      .error "ValueError" := by
  have h := C2_split_and_multisep "Managed Software Center".data "Ace".data
  exact ⟨h.1 _ _ (by decide) (by decide) (by decide),
         h.2 _ _ _ (by decide) (by decide) (by decide)⟩

/-- C3 witness: on a file whose rewrite leaves no occurrence of the
localized name, the second run returns the file unchanged. -/
theorem C3_idempotent_witness :
    replace_strings "en" "Ace" ["/* a = b */".data] = .ok ["/* a = b */".data] ∧
    replace_nib_lines "Managed Software Center" "Ace"
        (replace_nib_lines "Managed Software Center" "Ace" []) =
      replace_nib_lines "Managed Software Center" "Ace" [] :=
  C3_idempotent_when_no_residual "en" "Ace" "Managed Software Center"
    ["/* a = b */".data] ["/* a = b */".data] [] rfl (by decide) (by rfl)
    (by decide) (by simp [replace_nib_lines])

/-- C5 witness: applying the first effect of a concrete conversion creates
the temporary directory and it persists; the full trace has no removal. -/
theorem C5_tempdir_never_removed_witness :
    (convert_to_icns "/in/a.png" "/cache" "/tmp/t1").1.any isRemovalOp = false ∧
    applyOps (fun _ => none)
        ((convert_to_icns "/in/a.png" "/cache" "/tmp/t1").1.take 1) "/tmp/t1" =
      some ⟨Enc.dirE, []⟩ :=
  C5_tempdir_never_removed "/in/a.png" "/cache" "/tmp/t1" (fun _ => none) 1 (by decide)

/-- A concrete filesystem for the C6 witness: one .strings file holding a
single comment line. -/
def fsC6 : FS := fun p =>
  if p = "/r/x.strings" then some ⟨Enc.utf16, ["/* c = d */".data]⟩ else none

/-- C6 witness: the shadow-and-swap trace at a concrete file, with the crash
point after the first two effects leaving the original untouched. -/
theorem C6_strings_shadow_swap_witness :
    (replace_strings_run fsC6 "/r/x.strings" "en" "Ace").1 =
      (FsOp.createFile ("/r/x.strings" ++ ".bak") Enc.utf16 ::
        List.map (FsOp.appendLine ("/r/x.strings" ++ ".bak")) ["/* c = d */".data]) ++
        [FsOp.removeFile "/r/x.strings",
         FsOp.renameFile ("/r/x.strings" ++ ".bak") "/r/x.strings"] ∧
    applyOps fsC6 ((replace_strings_run fsC6 "/r/x.strings" "en" "Ace").1.take 2)
      "/r/x.strings" = fsC6 "/r/x.strings" ∧
    applyOps fsC6 (replace_strings_run fsC6 "/r/x.strings" "en" "Ace").1
      "/r/x.strings" = some ⟨Enc.utf16, ["/* c = d */".data]⟩ :=
  C6_strings_shadow_swap fsC6 "/r/x.strings" "en" "Ace"
    ["/* c = d */".data] ["/* c = d */".data] 2 rfl (by rfl) (by decide)

/-- A concrete tree for the C7 witness: the resources of the first application
hold a single xx.lproj directory, an unknown language code. -/
def tmW : TreeModel :=
  ⟨fun r => if r = "/u/" ++ MSC_APP.path then ["/u/" ++ MSC_APP.path ++ "/xx.lproj"] else [],
   fun d => if d = "/u/" ++ MSC_APP.path ++ "/xx.lproj" then
     ["/u/" ++ MSC_APP.path ++ "/xx.lproj/x.strings"] else [],
   fun _ => "/tmp/t2"⟩

/-- The matching filesystem for the C7 witness. -/
def fsW : FS := fun p =>
  if p = "/u/" ++ MSC_APP.path ++ "/xx.lproj/x.strings" then
    some ⟨Enc.utf16, ["\"T\" = \"Managed Software Center\";".data]⟩
  else none

/-- The environment for the C7 witness: both required inputs, no icon. -/
def envW : Env := ⟨some "/u", some "Ace", none, none⟩

/-- C7 witness: the file under the unknown xx.lproj directory is untouched
by the whole run, and the skip of xx.lproj is a no-op with no error. -/
theorem C7_unknown_lproj_untouched_witness :
    applyOps fsW (mainRun tmW fsW envW).1
        ("/u/" ++ MSC_APP.path ++ "/xx.lproj/x.strings") =
      fsW ("/u/" ++ MSC_APP.path ++ "/xx.lproj/x.strings") ∧
    processLproj tmW fsW ("/u/" ++ MSC_APP.path ++ "/xx.lproj") "Ace" = ([], none) := by
  have h := C7_unknown_lproj_untouched tmW fsW envW "/u"
    ("/u/" ++ MSC_APP.path ++ "/xx.lproj/x.strings") rfl (by decide) (by decide)
    (by
      intro m
      show ("/tmp/t2" : String).data.isPrefixOf
        ("/u/" ++ MSC_APP.path ++ "/xx.lproj/x.strings").data = false
      decide)
  exact ⟨h.1, h.2 fsW ("/u/" ++ MSC_APP.path ++ "/xx.lproj") "Ace" (by decide)⟩

/-- A concrete filesystem for the C9 witness: one binary .nib file. -/
def fsC9 : FS := fun p =>
  if p = "/r/m.nib" then some ⟨Enc.binPlist, ["<x/>".data]⟩ else none

/-- C9 witness: the concrete nib trace converts in place first; crashing
right after leaves the xml form, which differs from the binary form. -/
theorem C9_nib_inplace_convert_witness :
    (replace_nib_run fsC9 "/r/m.nib" "en" "Ace").1.head? =
      some (FsOp.plistToXml "/r/m.nib") ∧
    applyOps fsC9 ((replace_nib_run fsC9 "/r/m.nib" "en" "Ace").1.take 1)
      "/r/m.nib" = some ⟨Enc.xmlPlist, ["<x/>".data]⟩ ∧
    some ⟨Enc.xmlPlist, ["<x/>".data]⟩ ≠ fsC9 "/r/m.nib" ∧
    applyOps fsC9 (replace_nib_run fsC9 "/r/m.nib" "en" "Ace").1 "/r/m.nib" =
      some ⟨Enc.binPlist,
        replace_nib_lines "Managed Software Center" "Ace" ["<x/>".data]⟩ :=
  C9_nib_inplace_convert fsC9 "/r/m.nib" "en" "Ace" "Managed Software Center"
    ["<x/>".data] 1 rfl rfl (by decide) (by decide)

/-- An empty tree model for the C10 witness. -/
def tmE : TreeModel := ⟨fun _ => [], fun _ => [], fun _ => "/tmp/t3"⟩

/-- An empty filesystem for the C10 witness. -/
def fsE : FS := fun _ => none

/-- An environment missing the required unpacked_path input. -/
def envC10 : Env := ⟨none, some "Ace", none, none⟩

/-- C10 witness: with unpacked_path absent, main does nothing silently. -/
theorem C10_missing_required_inputs_silent_witness :
    mainRun tmE fsE envC10 = ([], none) ∧
    ("unpacked_path", true) ∈ input_variables ∧
    ("app_name", true) ∈ input_variables :=
  C10_missing_required_inputs_silent tmE fsE envC10 (Or.inl rfl)

end MunkiRebrander
